import Mathlib

/-!
# Formal model of `s27051_2025.py`

A shallow embedding of the core of the DNA-sequence program `s27051_2025.py`:
the sequence generator (`generate_sequence`, lines 22–74 of the source) and the
composition analyzer (`print_sequence_stats`, lines 77–108).

Modelling conventions:
* Python strings are `List Char`.
* The Python `random` module's process-wide state is a `RandomState`: a stream
  of raw natural-number draws together with the index of the next draw.
  `random.seed(42)` replaces the state by the fixed state determined by the
  seed; since the Mersenne Twister itself is not part of the source, the stream
  it would produce from seed 42 is a parameter (`seedStream`) of the model, and
  every theorem quantifies over it.
* `random.choices(dna_bases, k=k)` consumes `k` raw draws, each reduced
  modulo 4 to index into `dna_bases`; `random.randint(a, b)` consumes one raw
  draw, reduced to the closed range `[a, b]`.
* Python floats are modelled as exact rationals `ℚ`; Python's `round(x, 1)`
  (banker's rounding to one decimal place) is `pyRound1`, built on
  round-half-to-even `rne`.
* `re.compile(re.escape(name), re.IGNORECASE).sub('', s)` is `reSub name s`:
  removal of every leftmost, non-overlapping, case-insensitive occurrence of
  the literal string `name` (`re.escape` makes the pattern literal, so the
  model matches `name` itself); an empty pattern with an empty replacement is
  the identity, as in Python.
* Printing is modelled by returning the printed statistics; the "Empty
  sequence" early return (line 93–94) is `Option.none`.
-/

namespace DNA

/-- `dna_bases = ['A', 'C', 'G', 'T']` (source line 63). -/
def dna_bases : List Char := ['A', 'C', 'G', 'T']

/-- The process-wide state of Python's `random` module: the stream of raw
draws it will produce and the index of the next draw. -/
structure RandomState where
  stream : Nat → Nat
  pos : Nat

/-- Model of `random.seed(42)` (source line 62): the previous state `_s` is
discarded and replaced by the fixed state determined by seed 42, whose
stream of draws is `seedStream`, starting at position 0. -/
def seed42 (seedStream : Nat → Nat) (_s : RandomState) : RandomState :=
  ⟨seedStream, 0⟩

/-- Model of `random.choices(dna_bases, k=k)` (source line 64): `k` draws,
each reduced modulo 4 to select a base, advancing the state by `k`. -/
def choices (s : RandomState) (k : Nat) : List Char × RandomState :=
  ((List.range k).map (fun i => dna_bases.getD (s.stream (s.pos + i) % 4) 'A'),
   ⟨s.stream, s.pos + k⟩)

/-- Model of `random.randint(a, b)` (source line 66): one draw reduced to the
closed integer range `[a, b]`, advancing the state by 1. -/
def randint (s : RandomState) (a b : Nat) : Nat × RandomState :=
  (a + s.stream s.pos % (b - a + 1), ⟨s.stream, s.pos + 1⟩)

/-- The core of `generate_sequence` (source lines 62–67): seed the random
module, draw the base sequence, draw the insertion offset, and splice the
user's name into the base sequence at that offset.  Takes the incoming
`random`-module state `s0` and returns the tagged sequence together with the
outgoing state. -/
def generate_sequence (seedStream : Nat → Nat) (s0 : RandomState)
    (sequence_length : Nat) (user_name : List Char) : List Char × RandomState :=
  let s1 := seed42 seedStream s0
  let p1 := choices s1 sequence_length
  let dna_sequence := p1.1
  let p2 := randint p1.2 0 sequence_length
  let insert_position := p2.1
  (dna_sequence.take insert_position ++ user_name ++ dna_sequence.drop insert_position,
   p2.2)

/-- The base nucleotide sequence drawn by `generate_sequence` for stream `g`
and length `L` (the value of the source's `dna_sequence`, line 64). -/
def base_sequence (g : Nat → Nat) (L : Nat) : List Char :=
  (choices ⟨g, 0⟩ L).1

/-- The insertion offset drawn by `generate_sequence` for stream `g` and
length `L` (the value of the source's `insert_position`, line 66): the
`L`-th post-seed draw reduced to `[0, L]`. -/
def offset_draw (g : Nat → Nat) (L : Nat) : Nat :=
  (randint (choices ⟨g, 0⟩ L).2 0 L).1

/-- The name-validation test of source line 46:
`any(ch in "ATGC" for ch in user_name)` — `true` means the name is rejected
and the user is re-prompted. -/
def label_rejected (user_name : List Char) : Bool :=
  user_name.any (fun ch => ("ATGC".toList).contains ch)

/-- Case-insensitive character comparison, as performed by `re.IGNORECASE`. -/
def ciEq (a b : Char) : Bool := a.toLower == b.toLower

/-- `ciStarts lab s` holds when `lab` matches at the start of `s`,
case-insensitively. -/
def ciStarts : List Char → List Char → Bool
  | [], _ => true
  | _ :: _, [] => false
  | a :: la, b :: lb => ciEq a b && ciStarts la lb

/-- Fuel-indexed worker for `reSub`: scan left to right; at each position
either remove a (leftmost, non-overlapping, case-insensitive) occurrence of
`lab` and continue after it, or keep the character and move on.  Each step
consumes at least one character of `s`, so fuel `s.length` always suffices. -/
def subCIAux (lab : List Char) : Nat → List Char → List Char
  | _, [] => []
  | 0, s => s
  | fuel + 1, c :: rest =>
    if ciStarts lab (c :: rest) then subCIAux lab fuel ((c :: rest).drop lab.length)
    else c :: subCIAux lab fuel rest

/-- Model of `re.compile(re.escape(user_name), re.IGNORECASE).sub('', sequence)`
(source lines 82–83).  An empty pattern substituted by the empty replacement
is the identity, exactly as in Python. -/
def reSub (user_name sequence : List Char) : List Char :=
  if user_name.isEmpty then sequence
  else subCIAux user_name sequence.length sequence

/-- The scrubbing and normalization of source line 84:
`''.join([ch for ch in s if ch.upper() in 'ACGT']).upper()`. -/
def scrub (s : List Char) : List Char :=
  (s.filter (fun ch => dna_bases.contains ch.toUpper)).map Char.toUpper

/-- The fully cleaned sequence of source lines 82–84: label removal followed
by scrubbing and uppercasing (the source's final `sequence_cleaned`). -/
def sequence_cleaned (sequence user_name : List Char) : List Char :=
  scrub (reSub user_name sequence)

/-- Round-half-to-even to the nearest integer, as Python's builtin `round`. -/
def rne (q : ℚ) : ℤ :=
  if Int.fract q = 1 / 2 then (if ⌊q⌋ % 2 = 0 then ⌊q⌋ else ⌊q⌋ + 1) else round q

/-- Python's `round(x, 1)`: round to one decimal place. -/
def pyRound1 (q : ℚ) : ℚ := (rne (q * 10) : ℚ) / 10

/-- The exact percentage `(count / total) * 100` computed on source
lines 97–101 before rounding. -/
def pct_exact (count total : ℕ) : ℚ := (count : ℚ) / (total : ℚ) * 100

/-- The statistics printed by `print_sequence_stats` (source lines 97–108):
the four per-base percentages, the combined C+G percentage, and the
denominator. -/
structure CompositionStats where
  a_pct : ℚ
  c_pct : ℚ
  g_pct : ℚ
  t_pct : ℚ
  cg_pct : ℚ
  total : ℕ
deriving DecidableEq

/-- Source lines 86–108 applied to an already-cleaned sequence: count the four
bases, and either stop with `none` when the total is zero (the "Empty
sequence" early return, lines 92–94) or report the rounded percentages. -/
def statsFromCleaned (cleaned : List Char) : Option CompositionStats :=
  let a_count := cleaned.count 'A'
  let c_count := cleaned.count 'C'
  let g_count := cleaned.count 'G'
  let t_count := cleaned.count 'T'
  let total := cleaned.length
  if total = 0 then none
  else some
    { a_pct := pyRound1 (pct_exact a_count total)
      c_pct := pyRound1 (pct_exact c_count total)
      g_pct := pyRound1 (pct_exact g_count total)
      t_pct := pyRound1 (pct_exact t_count total)
      cg_pct := pyRound1 (pct_exact (c_count + g_count) total)
      total := total }

/-- `print_sequence_stats` (source lines 77–108), with printing modelled as
returning the printed statistics, `none` standing for the "Empty sequence —
no statistics to show." early return. -/
def print_sequence_stats (sequence user_name : List Char) : Option CompositionStats :=
  statsFromCleaned (sequence_cleaned sequence user_name)

/-- Modelled from the spec: "the resulting statistics equal those of the
sequence with no label removed" — the analyzer with the label-removal step
skipped, used only as the comparison point for that claim. -/
def stats_no_removal (sequence : List Char) : Option CompositionStats :=
  statsFromCleaned (scrub sequence)

/-- Two strings are case-variants of one another: they agree once every
character is lowered, i.e. they differ only in letter case. -/
def CaseEquiv (s s' : List Char) : Prop :=
  s.map Char.toLower = s'.map Char.toLower

/-! ## Helper lemmas -/

theorem length_base_sequence (g : Nat → Nat) (L : Nat) :
    (base_sequence g L).length = L := by
  simp [base_sequence, choices]

theorem offset_draw_le (g : Nat → Nat) (L : Nat) : offset_draw g L ≤ L := by
  simp only [offset_draw, randint, choices, Nat.zero_add, Nat.sub_zero]
  exact Nat.lt_succ_iff.mp (Nat.mod_lt _ (Nat.succ_pos L))

theorem generate_sequence_eq (g : Nat → Nat) (s0 : RandomState) (L : Nat)
    (name : List Char) :
    (generate_sequence g s0 L name).1 =
      (base_sequence g L).take (offset_draw g L) ++ name
        ++ (base_sequence g L).drop (offset_draw g L) := rfl

theorem toNat_ofNat_valid (n : Nat) (h : n.isValidChar) :
    (Char.ofNat n).toNat = n := by
  simp [Char.ofNat, h, Char.ofNatAux, Char.toNat, UInt32.toNat]

theorem char_upper_lower (c : Char) : c.toLower.toUpper = c.toUpper := by
  have hl : c.toLower = if c.toNat ≥ 65 ∧ c.toNat ≤ 90 then Char.ofNat (c.toNat + 32) else c := rfl
  have hu : ∀ d : Char, d.toUpper =
      if d.toNat ≥ 97 ∧ d.toNat ≤ 122 then Char.ofNat (d.toNat - 32) else d := fun _ => rfl
  by_cases h : c.toNat ≥ 65 ∧ c.toNat ≤ 90
  · rw [hl, if_pos h, hu, hu c]
    have hv : (c.toNat + 32).isValidChar := by
      left
      have := h.2
      omega
    have ht : (Char.ofNat (c.toNat + 32)).toNat = c.toNat + 32 := toNat_ofNat_valid _ hv
    rw [ht, if_pos (by omega), if_neg (by omega)]
    have h32 : c.toNat + 32 - 32 = c.toNat := by omega
    rw [h32, Char.ofNat_toNat]
  · rw [hl, if_neg h]

theorem pyRound1_intCast (n : ℤ) : pyRound1 (n : ℚ) = (n : ℚ) := by
  have h10 : ((n : ℚ) * 10) = (((n * 10 : ℤ)) : ℚ) := by push_cast; ring
  simp only [pyRound1, rne, h10, Int.fract_intCast, round_intCast]
  rw [if_neg (by norm_num)]
  push_cast
  ring

theorem abs_rne_sub (q : ℚ) : |(rne q : ℚ) - q| ≤ 1 / 2 := by
  unfold rne
  split
  · next hf =>
    have hq : q - (⌊q⌋ : ℚ) = 1 / 2 := by
      rw [Int.self_sub_floor]
      exact hf
    split <;> rw [abs_le] <;> constructor <;> push_cast <;> linarith
  · have h := abs_sub_round q
    rwa [abs_sub_comm] at h

theorem abs_pyRound1_sub (q : ℚ) : |pyRound1 q - q| ≤ 1 / 20 := by
  have hq : pyRound1 q - q = ((rne (q * 10) : ℚ) - q * 10) / 10 := by
    unfold pyRound1
    ring
  rw [hq, abs_div]
  have h2 : |(10 : ℚ)| = 10 := by norm_num
  rw [h2]
  have := abs_rne_sub (q * 10)
  linarith

theorem mem_scrub (s : List Char) (c : Char) (hc : c ∈ scrub s) :
    c = 'A' ∨ c = 'C' ∨ c = 'G' ∨ c = 'T' := by
  simp only [scrub, List.mem_map, List.mem_filter] at hc
  obtain ⟨a, ⟨_, ha⟩, rfl⟩ := hc
  have hmem : a.toUpper ∈ dna_bases := by simpa using ha
  simpa [dna_bases] using hmem

theorem counts_sum_of_forall (l : List Char)
    (h : ∀ c ∈ l, c = 'A' ∨ c = 'C' ∨ c = 'G' ∨ c = 'T') :
    l.count 'A' + l.count 'C' + l.count 'G' + l.count 'T' = l.length := by
  induction l with
  | nil => simp
  | cons c cs ih =>
    have hc := h c (List.mem_cons_self c cs)
    have ih' := ih (fun d hd => h d (List.mem_cons_of_mem c hd))
    rcases hc with rfl | rfl | rfl | rfl <;>
      simp [List.count_cons] <;> omega

theorem ciStarts_congr (lab : List Char) :
    ∀ s s', CaseEquiv s s' → ciStarts lab s = ciStarts lab s' := by
  induction lab with
  | nil => intro s s' _; rfl
  | cons a la ih =>
    intro s s' h
    cases s with
    | nil =>
      cases s' with
      | nil => rfl
      | cons b t => simp [CaseEquiv] at h
    | cons b t =>
      cases s' with
      | nil => simp [CaseEquiv] at h
      | cons b' t' =>
        obtain ⟨hb, ht⟩ : b.toLower = b'.toLower ∧ CaseEquiv t t' := by
          simpa [CaseEquiv] using h
        simp [ciStarts, ciEq, hb, ih t t' ht]

theorem caseEquiv_drop (n : Nat) (s s' : List Char) (h : CaseEquiv s s') :
    CaseEquiv (s.drop n) (s'.drop n) := by
  unfold CaseEquiv at h ⊢
  rw [List.map_drop, List.map_drop, h]

theorem subCIAux_caseEquiv (lab : List Char) :
    ∀ fuel s s', CaseEquiv s s' →
      CaseEquiv (subCIAux lab fuel s) (subCIAux lab fuel s') := by
  intro fuel
  induction fuel with
  | zero =>
    intro s s' h
    cases s <;> cases s' <;> simp_all [CaseEquiv, subCIAux]
  | succ n ih =>
    intro s s' h
    cases s with
    | nil =>
      cases s' with
      | nil => exact h
      | cons b t => simp [CaseEquiv] at h
    | cons c r =>
      cases s' with
      | nil => simp [CaseEquiv] at h
      | cons c' r' =>
        obtain ⟨hc, hr⟩ : c.toLower = c'.toLower ∧ CaseEquiv r r' := by
          simpa [CaseEquiv] using h
        have hst := ciStarts_congr lab (c :: r) (c' :: r') h
        by_cases hm : ciStarts lab (c :: r) = true
        · rw [subCIAux, subCIAux, if_pos hm, if_pos (hst ▸ hm)]
          exact ih _ _ (caseEquiv_drop lab.length _ _ h)
        · rw [subCIAux, subCIAux, if_neg hm, if_neg (hst ▸ hm)]
          unfold CaseEquiv
          simp only [List.map_cons, hc]
          exact congrArg _ (ih _ _ hr)

theorem scrub_caseEquiv (s : List Char) :
    ∀ s', CaseEquiv s s' → scrub s = scrub s' := by
  induction s with
  | nil =>
    intro s' h
    cases s' with
    | nil => rfl
    | cons b t => simp [CaseEquiv] at h
  | cons c r ih =>
    intro s' h
    cases s' with
    | nil => simp [CaseEquiv] at h
    | cons c' r' =>
      obtain ⟨hc, hr⟩ : c.toLower = c'.toLower ∧ CaseEquiv r r' := by
        simpa [CaseEquiv] using h
      have hup : c.toUpper = c'.toUpper := by
        rw [← char_upper_lower c, ← char_upper_lower c', hc]
      have htail := ih r' hr
      simp only [scrub, List.filter_cons, hup] at htail ⊢
      by_cases hp : dna_bases.contains c'.toUpper = true
      · rw [if_pos hp, if_pos hp, List.map_cons, List.map_cons, hup, htail]
      · rw [if_neg hp, if_neg hp]
        exact htail

theorem statsFromCleaned_eq_some (cl : List Char) (st : CompositionStats)
    (h : statsFromCleaned cl = some st) :
    cl.length ≠ 0 ∧
    st = { a_pct := pyRound1 (pct_exact (cl.count 'A') cl.length)
           c_pct := pyRound1 (pct_exact (cl.count 'C') cl.length)
           g_pct := pyRound1 (pct_exact (cl.count 'G') cl.length)
           t_pct := pyRound1 (pct_exact (cl.count 'T') cl.length)
           cg_pct := pyRound1 (pct_exact (cl.count 'C' + cl.count 'G') cl.length)
           total := cl.length } := by
  unfold statsFromCleaned at h
  by_cases h0 : cl.length = 0
  · rw [if_pos h0] at h
    exact absurd h (by simp)
  · rw [if_neg h0] at h
    exact ⟨h0, (Option.some.inj h).symm⟩

theorem eval_print_ACGT :
    print_sequence_stats ("ACGT".toList) ("x".toList) = some ⟨25, 25, 25, 25, 50, 4⟩ := by
  have h1 : sequence_cleaned ("ACGT".toList) ("x".toList) = "ACGT".toList := by decide
  rw [print_sequence_stats, h1]
  have ha : ("ACGT".toList).count 'A' = 1 := by decide
  have hc : ("ACGT".toList).count 'C' = 1 := by decide
  have hg : ("ACGT".toList).count 'G' = 1 := by decide
  have ht : ("ACGT".toList).count 'T' = 1 := by decide
  have hlen : ("ACGT".toList).length = 4 := by decide
  simp only [statsFromCleaned, ha, hc, hg, ht, hlen]
  rw [if_neg (by norm_num)]
  have e25 : pct_exact 1 4 = ((25 : ℤ) : ℚ) := by
    unfold pct_exact
    norm_num
  have e50 : pct_exact (1 + 1) 4 = ((50 : ℤ) : ℚ) := by
    unfold pct_exact
    norm_num
  rw [e25, e50, pyRound1_intCast, pyRound1_intCast]
  norm_num

/-! ## The claims -/

/-- Claim C1: for every positive length `L` and every label containing no
uppercase `A`, `T`, `G`, `C`, the generated tagged sequence has length exactly
`L + len(label)` and contains the label as a contiguous substring. -/
theorem claim1_tagged_length_and_contains (g : Nat → Nat) (s0 : RandomState)
    (L : Nat) (name : List Char) (_hL : 0 < L)
    (_hname : ∀ c ∈ name, c ∉ ("ATGC".toList)) :
    (generate_sequence g s0 L name).1.length = L + name.length ∧
    ∃ pre post, (generate_sequence g s0 L name).1 = pre ++ name ++ post := by
  rw [generate_sequence_eq]
  refine ⟨?_, _, _, rfl⟩
  have hb := length_base_sequence g L
  have ho := offset_draw_le g L
  simp only [List.length_append, List.length_take, List.length_drop, hb]
  omega

/-- Witness for C1 at `L = 3`, label `"b"`, an arbitrary stream and incoming
random state. -/
theorem claim1_tagged_length_and_contains_witness :
    (generate_sequence (fun i => i) ⟨fun _ => 7, 5⟩ 3 ("b".toList)).1.length
        = 3 + ("b".toList).length ∧
    ∃ pre post, (generate_sequence (fun i => i) ⟨fun _ => 7, 5⟩ 3 ("b".toList)).1
        = pre ++ ("b".toList) ++ post :=
  claim1_tagged_length_and_contains (fun i => i) ⟨fun _ => 7, 5⟩ 3 ("b".toList)
    (by decide) (by decide)

/-- Claim C3: `generate_sequence` gives the same tagged sequence whatever the
incoming state of the random module, because `random.seed(42)` discards that
state before any draw; two runs with identical inputs therefore coincide. -/
theorem claim3_reseeding_determinism (g : Nat → Nat) (s0 s0' : RandomState)
    (L : Nat) (name : List Char) :
    (generate_sequence g s0 L name).1 = (generate_sequence g s0' L name).1 := rfl

/-- Claim C6: the insertion offset always lies in the closed range `[0, L]`,
every value of that range (both endpoints included) is reachable by some
stream of draws, and the splice is correct at both endpoints: offset `0` puts
the label before the first character and offset `L` puts it after the last. -/
theorem claim6_offset_range_and_boundaries (L : Nat) (name : List Char)
    (s0 : RandomState) :
    (∀ g : Nat → Nat, offset_draw g L ≤ L) ∧
    (∀ k : Nat, k ≤ L → ∃ g : Nat → Nat, offset_draw g L = k) ∧
    (∀ g : Nat → Nat, offset_draw g L = 0 →
      (generate_sequence g s0 L name).1 = name ++ base_sequence g L) ∧
    (∀ g : Nat → Nat, offset_draw g L = L →
      (generate_sequence g s0 L name).1 = base_sequence g L ++ name) := by
  refine ⟨fun g => offset_draw_le g L, fun k hk => ⟨fun _ => k, ?_⟩, fun g h0 => ?_, fun g hL => ?_⟩
  · simp only [offset_draw, randint, choices, Nat.zero_add, Nat.sub_zero]
    exact Nat.mod_eq_of_lt (by omega)
  · rw [generate_sequence_eq, h0]
    simp
  · have hb : (base_sequence g L).length ≤ L := le_of_eq (length_base_sequence g L)
    rw [generate_sequence_eq, hL, List.take_of_length_le hb,
      List.drop_of_length_le hb, List.append_nil]

/-- Witness for C6: with the all-zero stream the offset is `0` and the label
lands at the very start. -/
theorem claim6_offset_range_and_boundaries_witness :
    (generate_sequence (fun _ => 0) ⟨fun _ => 9, 4⟩ 2 ("b".toList)).1
      = ("b".toList) ++ base_sequence (fun _ => 0) 2 :=
  (claim6_offset_range_and_boundaries 2 ("b".toList) ⟨fun _ => 9, 4⟩).2.2.1
    (fun _ => 0) (by decide)

/-- Claim C9: the base nucleotide sequence and the insertion offset do not
depend on the label; generating with two different labels splices them into
the same base sequence at the same position, so the two tagged sequences
differ only in the inserted label text. -/
theorem claim9_label_independent_draws (g : Nat → Nat) (s0 : RandomState)
    (L : Nat) (l1 l2 : List Char) :
    ∃ pre post,
      pre.length = offset_draw g L ∧
      pre ++ post = base_sequence g L ∧
      (generate_sequence g s0 L l1).1 = pre ++ l1 ++ post ∧
      (generate_sequence g s0 L l2).1 = pre ++ l2 ++ post := by
  refine ⟨(base_sequence g L).take (offset_draw g L),
    (base_sequence g L).drop (offset_draw g L), ?_, List.take_append_drop _ _,
    generate_sequence_eq g s0 L l1, generate_sequence_eq g s0 L l2⟩
  rw [List.length_take, length_base_sequence]
  exact Nat.min_eq_left (offset_draw_le g L)

/-- Claim C4: when no nucleotide characters survive label removal and
scrubbing, the analyzer stops in the distinguished empty state (`none`), and
analyzing the empty string with any label does so in particular. -/
theorem claim4_empty_composition (sequence user_name : List Char) :
    ((sequence_cleaned sequence user_name).length = 0 →
      print_sequence_stats sequence user_name = none) ∧
    print_sequence_stats ([] : List Char) user_name = none := by
  constructor
  · intro h
    simp [print_sequence_stats, statsFromCleaned, h]
  · cases user_name <;> rfl

/-- Witness for C4: `"b"` has no nucleotide characters, so analyzing it with
label `"x"` gives the empty result. -/
theorem claim4_empty_composition_witness :
    print_sequence_stats ("b".toList) ("x".toList) = none :=
  (claim4_empty_composition ("b".toList) ("x".toList)).1 (by decide)

/-- Claim C7: with the empty label, label removal is the identity (not an
infinite-occurrence match), so the analyzer gives exactly the statistics of
the sequence with no label removed. -/
theorem claim7_empty_label_noop (sequence : List Char) :
    reSub [] sequence = sequence ∧
    print_sequence_stats sequence [] = stats_no_removal sequence :=
  ⟨rfl, rfl⟩

/-- Claim C8: the label check rejects exactly the labels containing at least
one of the uppercase characters `A`, `T`, `G`, `C`; it is case-sensitive, so
the all-lowercase `"atgc"` is accepted while `"A"` is rejected. -/
theorem claim8_case_sensitive_validation (name : List Char) :
    (label_rejected name = true ↔
      ∃ c ∈ name, c = 'A' ∨ c = 'T' ∨ c = 'G' ∨ c = 'C') ∧
    label_rejected ("atgc".toList) = false ∧
    label_rejected ("A".toList) = true := by
  refine ⟨?_, by decide, by decide⟩
  simp [label_rejected, List.any_eq_true]

/-- Claim C2: on the worked example — sequence `"ACGTacgtXXXname"`, label
`"name"` — label removal gives `"ACGTacgtXXX"`, scrubbing and uppercasing give
`"ACGTACGT"`, and the reported statistics are total 8, A = 25.0%, C = 25.0%,
G = 25.0%, T = 25.0% and combined CG = 50.0%. -/
theorem claim2_worked_example :
    reSub ("name".toList) ("ACGTacgtXXXname".toList) = "ACGTacgtXXX".toList ∧
    sequence_cleaned ("ACGTacgtXXXname".toList) ("name".toList) = "ACGTACGT".toList ∧
    print_sequence_stats ("ACGTacgtXXXname".toList) ("name".toList) =
      some ⟨25, 25, 25, 25, 50, 8⟩ := by
  have h1 : sequence_cleaned ("ACGTacgtXXXname".toList) ("name".toList)
      = "ACGTACGT".toList := by decide
  refine ⟨by decide, h1, ?_⟩
  rw [print_sequence_stats, h1]
  have ha : ("ACGTACGT".toList).count 'A' = 2 := by decide
  have hc : ("ACGTACGT".toList).count 'C' = 2 := by decide
  have hg : ("ACGTACGT".toList).count 'G' = 2 := by decide
  have ht : ("ACGTACGT".toList).count 'T' = 2 := by decide
  have hlen : ("ACGTACGT".toList).length = 8 := by decide
  simp only [statsFromCleaned, ha, hc, hg, ht, hlen]
  rw [if_neg (by norm_num)]
  have e25 : pct_exact 2 8 = ((25 : ℤ) : ℚ) := by
    unfold pct_exact
    norm_num
  have e50 : pct_exact (2 + 2) 8 = ((50 : ℤ) : ℚ) := by
    unfold pct_exact
    norm_num
  rw [e25, e50, pyRound1_intCast, pyRound1_intCast]
  norm_num

/-- Claim C5: whenever the analyzer returns statistics (`some st`), the four
exact percentages sum to exactly 100 before rounding, and the four reported
rounded percentages sum to 100 within the accumulated rounding error
(at most 0.05 per value, so `|sum - 100| ≤ 1/5`). -/
theorem claim5_percentages_sum_100 (sequence user_name : List Char)
    (st : CompositionStats)
    (h : print_sequence_stats sequence user_name = some st) :
    pct_exact ((sequence_cleaned sequence user_name).count 'A')
        (sequence_cleaned sequence user_name).length
      + pct_exact ((sequence_cleaned sequence user_name).count 'C')
        (sequence_cleaned sequence user_name).length
      + pct_exact ((sequence_cleaned sequence user_name).count 'G')
        (sequence_cleaned sequence user_name).length
      + pct_exact ((sequence_cleaned sequence user_name).count 'T')
        (sequence_cleaned sequence user_name).length = 100 ∧
    |st.a_pct + st.c_pct + st.g_pct + st.t_pct - 100| ≤ 1 / 5 := by
  obtain ⟨h0, hst⟩ :=
    statsFromCleaned_eq_some (sequence_cleaned sequence user_name) st h
  set cl := sequence_cleaned sequence user_name with hcl
  have hall : ∀ c ∈ cl, c = 'A' ∨ c = 'C' ∨ c = 'G' ∨ c = 'T' :=
    fun c hc => mem_scrub (reSub user_name sequence) c hc
  have hcnt := counts_sum_of_forall cl hall
  have hT : ((cl.length : ℚ)) ≠ 0 := Nat.cast_ne_zero.mpr h0
  have hQ : ((cl.count 'A' : ℚ) + (cl.count 'C' : ℚ) + (cl.count 'G' : ℚ)
      + (cl.count 'T' : ℚ)) = (cl.length : ℚ) := by
    exact_mod_cast hcnt
  have hexact : pct_exact (cl.count 'A') cl.length + pct_exact (cl.count 'C') cl.length
      + pct_exact (cl.count 'G') cl.length + pct_exact (cl.count 'T') cl.length = 100 := by
    unfold pct_exact
    field_simp
    linear_combination (100 : ℚ) * hQ
  refine ⟨hexact, ?_⟩
  have b1 := abs_pyRound1_sub (pct_exact (cl.count 'A') cl.length)
  have b2 := abs_pyRound1_sub (pct_exact (cl.count 'C') cl.length)
  have b3 := abs_pyRound1_sub (pct_exact (cl.count 'G') cl.length)
  have b4 := abs_pyRound1_sub (pct_exact (cl.count 'T') cl.length)
  rw [hst]
  dsimp only
  rw [abs_le] at b1 b2 b3 b4 ⊢
  constructor <;>
    linarith [b1.1, b1.2, b2.1, b2.2, b3.1, b3.2, b4.1, b4.2, hexact]

/-- Witness for C5 at the sequence `"ACGT"` with label `"x"`. -/
theorem claim5_percentages_sum_100_witness :
    pct_exact ((sequence_cleaned ("ACGT".toList) ("x".toList)).count 'A')
        (sequence_cleaned ("ACGT".toList) ("x".toList)).length
      + pct_exact ((sequence_cleaned ("ACGT".toList) ("x".toList)).count 'C')
        (sequence_cleaned ("ACGT".toList) ("x".toList)).length
      + pct_exact ((sequence_cleaned ("ACGT".toList) ("x".toList)).count 'G')
        (sequence_cleaned ("ACGT".toList) ("x".toList)).length
      + pct_exact ((sequence_cleaned ("ACGT".toList) ("x".toList)).count 'T')
        (sequence_cleaned ("ACGT".toList) ("x".toList)).length = 100 ∧
    |(25 : ℚ) + 25 + 25 + 25 - 100| ≤ 1 / 5 :=
  claim5_percentages_sum_100 ("ACGT".toList) ("x".toList) ⟨25, 25, 25, 25, 50, 4⟩
    eval_print_ACGT

/-- Claim C10: the analyzer's result is invariant under changing the letter
case of characters of the analyzed sequence — label removal, scrubbing and
normalization are all case-insensitive. -/
theorem claim10_case_invariance (sequence sequence' user_name : List Char)
    (h : CaseEquiv sequence sequence') :
    print_sequence_stats sequence user_name
      = print_sequence_stats sequence' user_name := by
  have hclean : sequence_cleaned sequence user_name
      = sequence_cleaned sequence' user_name := by
    unfold sequence_cleaned
    apply scrub_caseEquiv
    unfold reSub
    have hlen : sequence.length = sequence'.length := by
      have hml := congrArg List.length h
      simpa using hml
    by_cases he : user_name.isEmpty = true
    · rw [if_pos he, if_pos he]
      exact h
    · rw [if_neg he, if_neg he, hlen]
      exact subCIAux_caseEquiv user_name sequence'.length sequence sequence' h
  unfold print_sequence_stats
  rw [hclean]

/-- Witness for C10: `"aCgT"` and `"AcGt"` differ only in case and get the
same statistics. -/
theorem claim10_case_invariance_witness :
    print_sequence_stats ("aCgT".toList) ("g".toList)
      = print_sequence_stats ("AcGt".toList) ("g".toList) :=
  claim10_case_invariance ("aCgT".toList) ("AcGt".toList) ("g".toList) (by rfl)

end DNA
